import Mathlib

/-!
Verification of the CourseKG native helper library.

The core under verification is the region-overlap deduplication algorithm
(`structure` in `src/src/lib.rs`, here `structure_fn` since `structure` is a
Lean keyword) together with its geometric leaves `iou` and `contained`, and
the text-packing routine `optimize_length` (identical to
`optimize_strings_length` in `rust/src/ext/common.rs`).

Modelling choices:
* `f32` coordinates are modelled as exact rationals `ℚ`; the algorithms only
  compare, add, subtract, multiply and divide, all of which are modelled
  exactly.
* the thread-local random source (`rand::thread_rng().gen_bool(0.5)`) is
  modelled as an arbitrary stream of booleans `coins : ℕ → Bool`, consumed
  left to right; quantifying over all streams quantifies over all outcomes
  of the random choices.
* Rust `String`s are modelled as `List Char`; `chars().count()` is
  `List.length`, `trim_end` is `List.rdropWhile Char.isWhitespace`.
-/

namespace CourseKG

/-- A rectangle `(x_min, y_min, x_max, y_max)`, as in the Rust tuple
`(f32, f32, f32, f32)`; coordinates modelled as exact rationals. -/
structure Rect where
  xMin : ℚ
  yMin : ℚ
  xMax : ℚ
  yMax : ℚ
deriving DecidableEq

/-- A detection `(label, rectangle)`, as in the Rust `(String, (f32,f32,f32,f32))`. -/
abbrev Det : Type := String × Rect

/-- `box_area` as computed inside `iou`: `(box.2 - box.0) * (box.3 - box.1)`,
not clamped, may be negative for inverted rectangles. -/
def area (b : Rect) : ℚ := (b.xMax - b.xMin) * (b.yMax - b.yMin)

/-- `inter_area` as computed inside `iou`:
`(x2 - x1).max(0.0) * (y2 - y1).max(0.0)` where `x1 = box1.0.max(box2.0)`,
`y1 = box1.1.max(box2.1)`, `x2 = box1.2.min(box2.2)`, `y2 = box1.3.min(box2.3)`. -/
def interArea (b1 b2 : Rect) : ℚ :=
  max (min b1.xMax b2.xMax - max b1.xMin b2.xMin) 0 *
    max (min b1.yMax b2.yMax - max b1.yMin b2.yMin) 0

/-- `union_area = box1_area + box2_area - inter_area` (from `iou` in
`src/src/lib.rs`). -/
def unionArea (b1 b2 : Rect) : ℚ := area b1 + area b2 - interArea b1 b2

/-- `iou` from `src/src/lib.rs` lines 160-178:
`if union_area != 0.0 { inter_area / union_area } else { 0.0 }`. -/
def iou (b1 b2 : Rect) : ℚ :=
  if unionArea b1 b2 ≠ 0 then interArea b1 b2 / unionArea b1 b2 else 0

/-- `contained` from `src/src/lib.rs` lines 180-182:
`box1.0 <= box2.0 && box1.1 <= box2.1 && box1.2 >= box2.2 && box1.3 >= box2.3`. -/
def contained (b1 b2 : Rect) : Prop :=
  b1.xMin ≤ b2.xMin ∧ b1.yMin ≤ b2.yMin ∧ b1.xMax ≥ b2.xMax ∧ b1.yMax ≥ b2.yMax

instance (b1 b2 : Rect) : Decidable (contained b1 b2) := by
  unfold contained; infer_instance

lemma interArea_nonneg (b1 b2 : Rect) : 0 ≤ interArea b1 b2 :=
  mul_nonneg (le_max_right _ _) (le_max_right _ _)

lemma interArea_comm (b1 b2 : Rect) : interArea b1 b2 = interArea b2 b1 := by
  unfold interArea
  rw [min_comm b1.xMax, max_comm b1.xMin, min_comm b1.yMax, max_comm b1.yMin]

lemma unionArea_comm (b1 b2 : Rect) : unionArea b1 b2 = unionArea b2 b1 := by
  unfold unionArea
  rw [interArea_comm, add_comm]

lemma iou_comm (b1 b2 : Rect) : iou b1 b2 = iou b2 b1 := by
  unfold iou
  rw [unionArea_comm, interArea_comm]

/-- In a product of two extents clamped at zero, positivity of the product
forces positivity of both raw extents. -/
lemma pos_of_clamped_mul_pos (w v : ℚ) (hwv : 0 < max w 0 * max v 0) :
    0 < w ∧ 0 < v := by
  constructor
  · by_contra hc
    push_neg at hc
    rw [max_eq_right hc, zero_mul] at hwv
    exact lt_irrefl 0 hwv
  · by_contra hc
    push_neg at hc
    rw [max_eq_right hc, mul_zero] at hwv
    exact lt_irrefl 0 hwv

/-- If the (clamped) intersection area is positive, it is bounded by each
box's own area: the intersection extents are bounded by the box extents. -/
lemma interArea_le_area (b1 b2 : Rect) (h : 0 < interArea b1 b2) :
    interArea b1 b2 ≤ area b1 ∧ interArea b1 b2 ≤ area b2 := by
  unfold interArea at h ⊢
  obtain ⟨hwpos, hvpos⟩ := pos_of_clamped_mul_pos _ _ h
  rw [max_eq_left hwpos.le, max_eq_left hvpos.le]
  unfold area
  constructor
  · exact mul_le_mul (sub_le_sub (min_le_left _ _) (le_max_left _ _))
      (sub_le_sub (min_le_left _ _) (le_max_left _ _)) hvpos.le
      (hwpos.le.trans (sub_le_sub (min_le_left _ _) (le_max_left _ _)))
  · exact mul_le_mul (sub_le_sub (min_le_right _ _) (le_max_right _ _))
      (sub_le_sub (min_le_right _ _) (le_max_right _ _)) hvpos.le
      (hwpos.le.trans (sub_le_sub (min_le_right _ _) (le_max_right _ _)))

lemma iou_nonneg_le_one (b1 b2 : Rect) : 0 ≤ iou b1 b2 ∧ iou b1 b2 ≤ 1 := by
  unfold iou
  by_cases hu : unionArea b1 b2 ≠ 0
  · rw [if_pos hu]
    rcases lt_or_eq_of_le (interArea_nonneg b1 b2) with hi | hi
    · have hle := interArea_le_area b1 b2 hi
      have hupos : 0 < unionArea b1 b2 := by
        unfold unionArea
        have : interArea b1 b2 + interArea b1 b2 - interArea b1 b2 ≤
            area b1 + area b2 - interArea b1 b2 :=
          sub_le_sub_right (add_le_add hle.1 hle.2) _
        calc (0 : ℚ) < interArea b1 b2 := hi
        _ = interArea b1 b2 + interArea b1 b2 - interArea b1 b2 := by ring
        _ ≤ _ := this
      constructor
      · exact div_nonneg hi.le hupos.le
      · rw [div_le_one hupos]
        unfold unionArea
        have : interArea b1 b2 + interArea b1 b2 - interArea b1 b2 ≤
            area b1 + area b2 - interArea b1 b2 :=
          sub_le_sub_right (add_le_add hle.1 hle.2) _
        calc interArea b1 b2 = interArea b1 b2 + interArea b1 b2 - interArea b1 b2 := by ring
        _ ≤ _ := this
    · rw [← hi, zero_div]
      exact ⟨le_refl 0, zero_le_one⟩
  · rw [if_neg hu]
    exact ⟨le_refl 0, zero_le_one⟩

/-- C3: for all rectangle pairs, including degenerate and inverted ones,
IoU is symmetric and lies in `[0, 1]`, even though the individual box areas
in the union are not clamped and can be negative. -/
theorem iou_symm_and_bounded (b1 b2 : Rect) :
    iou b1 b2 = iou b2 b1 ∧ 0 ≤ iou b1 b2 ∧ iou b1 b2 ≤ 1 :=
  ⟨iou_comm b1 b2, iou_nonneg_le_one b1 b2⟩

/-- C9: whenever the computed union area equals zero, `iou` returns exactly
`0` instead of performing the division; the division branch is only taken
when the union area is nonzero. -/
theorem iou_zero_union_guard (b1 b2 : Rect) (h : unionArea b1 b2 = 0) :
    iou b1 b2 = 0 := by
  unfold iou
  rw [if_neg (by simpa using h)]

/-- C9 witness: two zero-area rectangles at the same point have zero union
area, and their IoU is `0` rather than an arithmetic error. -/
theorem iou_zero_union_guard_witness :
    unionArea ⟨1, 1, 1, 1⟩ ⟨1, 1, 1, 1⟩ = 0 ∧ iou ⟨1, 1, 1, 1⟩ ⟨1, 1, 1, 1⟩ = 0 :=
  ⟨by norm_num [unionArea, area, interArea],
    iou_zero_union_guard ⟨1, 1, 1, 1⟩ ⟨1, 1, 1, 1⟩
      (by norm_num [unionArea, area, interArea])⟩

/-- The inner scan of `structure` (`src/src/lib.rs` lines 200-215): the
anchor is compared against a snapshot of the working list; the result is
`(keep, to_remove, next coin index)`.  Each overlap conflict consumes one
coin: coin `true` marks `other` for removal, coin `false` drops the anchor
and stops the scan (`keep = false`, `break`); otherwise containment of
`other` in the anchor marks `other`, containment of the anchor in `other`
drops the anchor and stops.  The `to_remove` entries accumulated before a
`break` are returned, as in the Rust code. -/
def scanStep (t : ℚ) (anchor : Det) (coins : ℕ → Bool) :
    List Det → ℕ → Bool × List Det × ℕ
  | [], k => (true, [], k)
  | o :: rest, k =>
    if iou anchor.2 o.2 > t then
      if coins k then
        let r := scanStep t anchor coins rest (k + 1)
        (r.1, o :: r.2.1, r.2.2)
      else
        (false, [], k + 1)
    else if contained anchor.2 o.2 then
      let r := scanStep t anchor coins rest k
      (r.1, o :: r.2.1, r.2.2)
    else if contained o.2 anchor.2 then
      (false, [], k)
    else
      scanStep t anchor coins rest k

/-- The removal pass of `structure` (`src/src/lib.rs` lines 217-219):
`for item in to_remove { detections.retain(|x| x != &item) }`. -/
def removeAll (l rem : List Det) : List Det :=
  rem.foldl (fun acc item => acc.filter fun x => decide (x ≠ item)) l

lemma removeAll_sublist (rem : List Det) :
    ∀ l : List Det, List.Sublist (removeAll l rem) l := by
  induction rem with
  | nil => intro l; exact List.Sublist.refl l
  | cons i is ih =>
    intro l
    exact (ih (l.filter fun x => decide (x ≠ i))).trans (List.filter_sublist l)

lemma removeAll_length_le (l rem : List Det) :
    (removeAll l rem).length ≤ l.length :=
  (removeAll_sublist rem l).length_le

/-- The outer loop of `structure` (`src/src/lib.rs` lines 198-224): while
the working list is non-empty, pop the front as anchor, scan the rest,
apply the collected removals, and keep the anchor when `keep` survived. -/
def dedupLoop (t : ℚ) (coins : ℕ → Bool) : List Det → ℕ → List Det
  | [], _ => []
  | d :: ds, k =>
    let r := scanStep t d coins ds k
    let ds' := removeAll ds r.2.1
    if r.1 then d :: dedupLoop t coins ds' r.2.2 else dedupLoop t coins ds' r.2.2
termination_by l _ => l.length
decreasing_by
  all_goals
    simp only [List.length_cons]
    exact Nat.lt_succ_of_le (removeAll_length_le _ _)

/-- `structure` from `src/src/lib.rs` lines 185-227 (named `structure_fn`
here because `structure` is a Lean keyword): deduplicate the detections,
threading the stream of random booleans from index `0`. -/
def structure_fn (coins : ℕ → Bool) (detections : List Det) (iou_threshold : ℚ) :
    List Det :=
  dedupLoop iou_threshold coins detections 0

lemma scanStep_nil (t : ℚ) (anchor : Det) (coins : ℕ → Bool) (k : ℕ) :
    scanStep t anchor coins [] k = (true, [], k) := by
  rw [scanStep]

lemma scanStep_conflict_true {t : ℚ} {anchor o : Det} {coins : ℕ → Bool} {k : ℕ}
    (rest : List Det) (h : iou anchor.2 o.2 > t) (hc : coins k = true) :
    scanStep t anchor coins (o :: rest) k =
      ((scanStep t anchor coins rest (k + 1)).1,
        o :: (scanStep t anchor coins rest (k + 1)).2.1,
        (scanStep t anchor coins rest (k + 1)).2.2) := by
  rw [scanStep, if_pos h, if_pos hc]

lemma scanStep_conflict_false {t : ℚ} {anchor o : Det} {coins : ℕ → Bool} {k : ℕ}
    (rest : List Det) (h : iou anchor.2 o.2 > t) (hc : coins k = false) :
    scanStep t anchor coins (o :: rest) k = (false, [], k + 1) := by
  rw [scanStep, if_pos h, if_neg (by simp [hc])]

lemma scanStep_contains {t : ℚ} {anchor o : Det} {coins : ℕ → Bool} {k : ℕ}
    (rest : List Det) (h : ¬iou anchor.2 o.2 > t) (hco : contained anchor.2 o.2) :
    scanStep t anchor coins (o :: rest) k =
      ((scanStep t anchor coins rest k).1,
        o :: (scanStep t anchor coins rest k).2.1,
        (scanStep t anchor coins rest k).2.2) := by
  rw [scanStep, if_neg h, if_pos hco]

lemma scanStep_contained_by {t : ℚ} {anchor o : Det} {coins : ℕ → Bool} {k : ℕ}
    (rest : List Det) (h : ¬iou anchor.2 o.2 > t) (hco : ¬contained anchor.2 o.2)
    (hcb : contained o.2 anchor.2) :
    scanStep t anchor coins (o :: rest) k = (false, [], k) := by
  rw [scanStep, if_neg h, if_neg hco, if_pos hcb]

lemma scanStep_skip {t : ℚ} {anchor o : Det} {coins : ℕ → Bool} {k : ℕ}
    (rest : List Det) (h : ¬iou anchor.2 o.2 > t) (hco : ¬contained anchor.2 o.2)
    (hcb : ¬contained o.2 anchor.2) :
    scanStep t anchor coins (o :: rest) k = scanStep t anchor coins rest k := by
  rw [scanStep, if_neg h, if_neg hco, if_neg hcb]

lemma dedupLoop_nil (t : ℚ) (coins : ℕ → Bool) (k : ℕ) :
    dedupLoop t coins [] k = [] := by
  rw [dedupLoop]

lemma dedupLoop_single (t : ℚ) (coins : ℕ → Bool) (d : Det) (k : ℕ) :
    dedupLoop t coins [d] k = [d] := by
  rw [dedupLoop]
  simp [scanStep_nil, removeAll, dedupLoop_nil]

lemma dedupLoop_pair_conflict_true {t : ℚ} {a b : Det} {coins : ℕ → Bool} {k : ℕ}
    (h : iou a.2 b.2 > t) (hc : coins k = true) :
    dedupLoop t coins [a, b] k = [a] := by
  rw [dedupLoop]
  simp only [scanStep_conflict_true [] h hc, scanStep_nil]
  simp [removeAll, dedupLoop_nil]

lemma dedupLoop_pair_conflict_false {t : ℚ} {a b : Det} {coins : ℕ → Bool} {k : ℕ}
    (h : iou a.2 b.2 > t) (hc : coins k = false) :
    dedupLoop t coins [a, b] k = [b] := by
  rw [dedupLoop]
  simp only [scanStep_conflict_false [] h hc]
  simp [removeAll, dedupLoop_single]

lemma dedupLoop_pair_contains {t : ℚ} {a b : Det} {coins : ℕ → Bool} {k : ℕ}
    (h : ¬iou a.2 b.2 > t) (hco : contained a.2 b.2) :
    dedupLoop t coins [a, b] k = [a] := by
  rw [dedupLoop]
  simp only [scanStep_contains [] h hco, scanStep_nil]
  simp [removeAll, dedupLoop_nil]

/-- C1: for a two-element input whose IoU exceeds the threshold, with
neither rectangle containing the other, every outcome of the random choice
keeps exactly one of the two detections: the output is `[a]` or `[b]`, and
exactly one of `a`, `b` is a member of the output. -/
theorem dedup_conflict_exactly_one (coins : ℕ → Bool) (t : ℚ) (a b : Det)
    (h : iou a.2 b.2 > t) (_hab : ¬contained a.2 b.2) (_hba : ¬contained b.2 a.2)
    (hne : a ≠ b) :
    (structure_fn coins [a, b] t = [a] ∨ structure_fn coins [a, b] t = [b]) ∧
      ((a ∈ structure_fn coins [a, b] t ∧ b ∉ structure_fn coins [a, b] t) ∨
        (b ∈ structure_fn coins [a, b] t ∧ a ∉ structure_fn coins [a, b] t)) := by
  unfold structure_fn
  cases hc : coins 0 with
  | true =>
    rw [dedupLoop_pair_conflict_true h hc]
    refine ⟨Or.inl rfl, Or.inl ⟨List.mem_singleton_self a, ?_⟩⟩
    intro hmem
    exact hne (List.mem_singleton.mp hmem).symm
  | false =>
    rw [dedupLoop_pair_conflict_false h hc]
    refine ⟨Or.inr rfl, Or.inr ⟨List.mem_singleton_self b, ?_⟩⟩
    intro hmem
    exact hne (List.mem_singleton.mp hmem)

/-- The concrete detection `("a",(0,0,10,10))` of the spec's first scenario. -/
def detA : Det := ("a", ⟨0, 0, 10, 10⟩)

/-- The concrete detection `("b",(5,5,15,15))` of the spec's first scenario. -/
def detB : Det := ("b", ⟨5, 5, 15, 15⟩)

/-- C1 witness: the concrete scenario `[("a",(0,0,10,10)), ("b",(5,5,15,15))]`
with threshold `1/10` (IoU is `25/175 = 1/7 > 1/10`), under the all-true
coin stream. -/
theorem dedup_conflict_exactly_one_witness :
    iou detA.2 detB.2 > (1 / 10 : ℚ) ∧
      ¬contained detA.2 detB.2 ∧ ¬contained detB.2 detA.2 ∧ detA ≠ detB ∧
      ((structure_fn (fun _ => true) [detA, detB] (1 / 10) = [detA] ∨
          structure_fn (fun _ => true) [detA, detB] (1 / 10) = [detB]) ∧
        ((detA ∈ structure_fn (fun _ => true) [detA, detB] (1 / 10) ∧
            detB ∉ structure_fn (fun _ => true) [detA, detB] (1 / 10)) ∨
          (detB ∈ structure_fn (fun _ => true) [detA, detB] (1 / 10) ∧
            detA ∉ structure_fn (fun _ => true) [detA, detB] (1 / 10)))) := by
  have h1 : iou detA.2 detB.2 > (1 / 10 : ℚ) := by
    norm_num [detA, detB, iou, unionArea, area, interArea, min_def, max_def]
  have h2 : ¬contained detA.2 detB.2 := by
    norm_num [detA, detB, contained]
  have h3 : ¬contained detB.2 detA.2 := by
    norm_num [detA, detB, contained]
  have h4 : detA ≠ detB := by
    simp [detA, detB]
  exact ⟨h1, h2, h3, h4,
    dedup_conflict_exactly_one (fun _ => true) (1 / 10) _ _ h1 h2 h3 h4⟩

/-- C2: when the anchor's rectangle fully contains the other's and their IoU
is not above the threshold, the contained detection is removed and the
anchor survives, for every coin stream and threshold. -/
theorem dedup_containment_removes_contained (coins : ℕ → Bool) (t : ℚ) (a b : Det)
    (h : ¬iou a.2 b.2 > t) (hco : contained a.2 b.2) :
    structure_fn coins [a, b] t = [a] := by
  unfold structure_fn
  exact dedupLoop_pair_contains h hco

/-- C2 witness: the concrete scenario `[("a",(0,0,10,10)), ("b",(2,2,4,4))]`
with threshold `9/10` (IoU is `4/100`, not above the threshold; `a` contains
`b`), for an arbitrary coin stream. -/
theorem dedup_containment_removes_contained_witness :
    ¬iou (⟨0, 0, 10, 10⟩ : Rect) ⟨2, 2, 4, 4⟩ > (9 / 10 : ℚ) ∧
      contained (⟨0, 0, 10, 10⟩ : Rect) ⟨2, 2, 4, 4⟩ ∧
      structure_fn (fun _ => true) [("a", ⟨0, 0, 10, 10⟩), ("b", ⟨2, 2, 4, 4⟩)] (9 / 10) =
        [("a", ⟨0, 0, 10, 10⟩)] := by
  have h1 : ¬iou (⟨0, 0, 10, 10⟩ : Rect) ⟨2, 2, 4, 4⟩ > (9 / 10 : ℚ) := by
    norm_num [iou, unionArea, area, interArea, min_def, max_def]
  have h2 : contained (⟨0, 0, 10, 10⟩ : Rect) ⟨2, 2, 4, 4⟩ := by
    norm_num [contained]
  exact ⟨h1, h2,
    dedup_containment_removes_contained (fun _ => true) (9 / 10) _ _ h1 h2⟩

/-- C6: when the overlap branch fires (IoU above the threshold), the
containment branches are shadowed even if the anchor geometrically contains
the other: the conflict is resolved by the coin flip, and under the
all-false stream the contained second detection is the sole survivor, while
under the all-true stream the anchor is. -/
theorem dedup_overlap_shadows_containment (t : ℚ) (a b : Det)
    (h : iou a.2 b.2 > t) (_hco : contained a.2 b.2) :
    structure_fn (fun _ => false) [a, b] t = [b] ∧
      structure_fn (fun _ => true) [a, b] t = [a] := by
  unfold structure_fn
  exact ⟨dedupLoop_pair_conflict_false h rfl, dedupLoop_pair_conflict_true h rfl⟩

/-- C6 witness: `a = ("a",(0,0,10,10))` contains `b = ("b",(1,1,9,9))` and
their IoU `64/100` exceeds the threshold `1/2`; the all-false stream keeps
only the contained `b`, the all-true stream keeps only `a`. -/
theorem dedup_overlap_shadows_containment_witness :
    iou (⟨0, 0, 10, 10⟩ : Rect) ⟨1, 1, 9, 9⟩ > (1 / 2 : ℚ) ∧
      contained (⟨0, 0, 10, 10⟩ : Rect) ⟨1, 1, 9, 9⟩ ∧
      structure_fn (fun _ => false) [("a", ⟨0, 0, 10, 10⟩), ("b", ⟨1, 1, 9, 9⟩)] (1 / 2) =
        [("b", ⟨1, 1, 9, 9⟩)] ∧
      structure_fn (fun _ => true) [("a", ⟨0, 0, 10, 10⟩), ("b", ⟨1, 1, 9, 9⟩)] (1 / 2) =
        [("a", ⟨0, 0, 10, 10⟩)] := by
  have h1 : iou (⟨0, 0, 10, 10⟩ : Rect) ⟨1, 1, 9, 9⟩ > (1 / 2 : ℚ) := by
    norm_num [iou, unionArea, area, interArea, min_def, max_def]
  have h2 : contained (⟨0, 0, 10, 10⟩ : Rect) ⟨1, 1, 9, 9⟩ := by
    norm_num [contained]
  obtain ⟨hl, hr⟩ := dedup_overlap_shadows_containment (1 / 2) ("a", ⟨0, 0, 10, 10⟩)
    ("b", ⟨1, 1, 9, 9⟩) h1 h2
  exact ⟨h1, h2, hl, hr⟩

/-- The pairwise precondition of the disjoint-input idempotence property:
zero intersection area and no containment in either direction. -/
def compatible (a b : Det) : Prop :=
  interArea a.2 b.2 = 0 ∧ ¬contained a.2 b.2 ∧ ¬contained b.2 a.2

instance (a b : Det) : Decidable (compatible a b) := by
  unfold compatible; infer_instance

lemma iou_eq_zero_of_interArea_zero {b1 b2 : Rect} (h : interArea b1 b2 = 0) :
    iou b1 b2 = 0 := by
  unfold iou
  split_ifs with hu
  · rw [h, zero_div]
  · rfl

lemma scanStep_compatible (t : ℚ) (d : Det) (coins : ℕ → Bool) (ht : 0 ≤ t) :
    ∀ (others : List Det) (k : ℕ), (∀ o ∈ others, compatible d o) →
      scanStep t d coins others k = (true, [], k) := by
  intro others
  induction others with
  | nil => intro k _; exact scanStep_nil t d coins k
  | cons o rest ih =>
    intro k hall
    obtain ⟨h0, hco, hcb⟩ := hall o (List.mem_cons_self o rest)
    have hiou : ¬iou d.2 o.2 > t := by
      rw [iou_eq_zero_of_interArea_zero h0]
      exact not_lt.mpr ht
    rw [scanStep_skip rest hiou hco hcb]
    exact ih k fun o' ho' => hall o' (List.mem_cons_of_mem o ho')

/-- C4 counterexample: two disjoint, non-containing detections and the
negative threshold `-1`: their IoU is `0 > -1`, so the overlap branch fires
and (with the all-true coin stream) the second detection is removed — the
input is not returned unchanged, refuting the claim for arbitrary
thresholds. -/
theorem dedup_disjoint_negative_threshold_counterexample :
    interArea (⟨0, 0, 1, 1⟩ : Rect) ⟨2, 2, 3, 3⟩ = 0 ∧
      ¬contained (⟨0, 0, 1, 1⟩ : Rect) ⟨2, 2, 3, 3⟩ ∧
      ¬contained (⟨2, 2, 3, 3⟩ : Rect) ⟨0, 0, 1, 1⟩ ∧
      structure_fn (fun _ => true) [("a", ⟨0, 0, 1, 1⟩), ("b", ⟨2, 2, 3, 3⟩)] (-1) ≠
        [("a", ⟨0, 0, 1, 1⟩), ("b", ⟨2, 2, 3, 3⟩)] := by
  refine ⟨?_, ?_, ?_, ?_⟩
  · norm_num [interArea, min_def, max_def]
  · norm_num [contained]
  · norm_num [contained]
  · have h : iou (⟨0, 0, 1, 1⟩ : Rect) ⟨2, 2, 3, 3⟩ > (-1 : ℚ) := by
      norm_num [iou, unionArea, area, interArea, min_def, max_def]
    unfold structure_fn
    rw [@dedupLoop_pair_conflict_true (-1) ("a", ⟨0, 0, 1, 1⟩) ("b", ⟨2, 2, 3, 3⟩)
      (fun _ => true) 0 h rfl]
    simp

/-- C4 (amended: nonnegative thresholds): for every input whose detections
are pairwise non-overlapping (zero intersection area) and non-containing,
every coin stream and every threshold `t ≥ 0`, `structure_fn` returns the
input unchanged in the same order. -/
theorem dedup_disjoint_identity (coins : ℕ → Bool) (dets : List Det) (t : ℚ)
    (ht : 0 ≤ t) (hp : dets.Pairwise compatible) :
    structure_fn coins dets t = dets := by
  unfold structure_fn
  suffices h : ∀ (l : List Det) (k : ℕ), l.Pairwise compatible →
      dedupLoop t coins l k = l by
    exact h dets 0 hp
  intro l
  induction l with
  | nil => intro k _; exact dedupLoop_nil t coins k
  | cons d ds ih =>
    intro k hp'
    rw [List.pairwise_cons] at hp'
    rw [dedupLoop]
    simp only [scanStep_compatible t d coins ht ds k hp'.1]
    simp only [removeAll, List.foldl_nil, if_true]
    rw [ih k hp'.2]

/-- C4 witness: two disjoint unit squares, threshold `1/2`, all-true coins:
the input comes back unchanged. -/
theorem dedup_disjoint_identity_witness :
    (0 : ℚ) ≤ 1 / 2 ∧
      ([("a", ⟨0, 0, 1, 1⟩), ("b", ⟨2, 2, 3, 3⟩)] : List Det).Pairwise compatible ∧
      structure_fn (fun _ => true) [("a", ⟨0, 0, 1, 1⟩), ("b", ⟨2, 2, 3, 3⟩)] (1 / 2) =
        [("a", ⟨0, 0, 1, 1⟩), ("b", ⟨2, 2, 3, 3⟩)] := by
  have h1 : (0 : ℚ) ≤ 1 / 2 := by norm_num
  have h2 : ([("a", ⟨0, 0, 1, 1⟩), ("b", ⟨2, 2, 3, 3⟩)] : List Det).Pairwise compatible := by
    rw [List.pairwise_cons]
    constructor
    · intro o ho
      have ho' : o = ("b", (⟨2, 2, 3, 3⟩ : Rect)) := by simpa using ho
      subst ho'
      norm_num [compatible, interArea, contained, min_def, max_def]
    · rw [List.pairwise_cons]
      exact ⟨fun o ho => absurd ho (List.not_mem_nil o), List.Pairwise.nil⟩
  exact ⟨h1, h2,
    dedup_disjoint_identity (fun _ => true) _ (1 / 2) h1 h2⟩

/-- C5: for every input, threshold and coin stream, the output of
`structure_fn` is a subsequence of the input: surviving detections keep
their label and all four coordinates, in the input's relative order. -/
theorem dedup_output_sublist (coins : ℕ → Bool) (dets : List Det) (t : ℚ) :
    List.Sublist (structure_fn coins dets t) dets := by
  unfold structure_fn
  suffices h : ∀ (n : ℕ) (l : List Det) (k : ℕ), l.length ≤ n →
      List.Sublist (dedupLoop t coins l k) l by
    exact h dets.length dets 0 (le_refl _)
  intro n
  induction n with
  | zero =>
    intro l k hl
    have hnil : l = [] := List.eq_nil_of_length_eq_zero (Nat.le_zero.mp hl)
    subst hnil
    rw [dedupLoop_nil]
  | succ n ih =>
    intro l k hl
    cases l with
    | nil => rw [dedupLoop_nil]
    | cons d ds =>
      rw [dedupLoop]
      show List.Sublist
        (if (scanStep t d coins ds k).1 then
            d :: dedupLoop t coins (removeAll ds (scanStep t d coins ds k).2.1)
              (scanStep t d coins ds k).2.2
          else
            dedupLoop t coins (removeAll ds (scanStep t d coins ds k).2.1)
              (scanStep t d coins ds k).2.2)
        (d :: ds)
      have hsub : List.Sublist (removeAll ds (scanStep t d coins ds k).2.1) ds :=
        removeAll_sublist _ _
      have hlen : (removeAll ds (scanStep t d coins ds k).2.1).length ≤ n :=
        le_trans hsub.length_le (Nat.succ_le_succ_iff.mp (by simpa using hl))
      by_cases hkeep : (scanStep t d coins ds k).1
      · rw [if_pos hkeep]
        exact List.Sublist.cons₂ d ((ih _ _ hlen).trans hsub)
      · rw [if_neg hkeep]
        exact List.Sublist.cons d ((ih _ _ hlen).trans hsub)

/-- C7: the removal pass removes by exact structural value match: it equals
a single filter keeping exactly the working-list entries not equal to any
marked value, so all duplicate-valued copies of a marked detection are
removed as well. -/
theorem removeAll_filters_all_marked (l rem : List Det) :
    removeAll l rem = l.filter fun x => decide (x ∉ rem) := by
  induction rem generalizing l with
  | nil => simp [removeAll]
  | cons i is ih =>
    have h1 : removeAll l (i :: is) = removeAll (l.filter fun x => decide (x ≠ i)) is := rfl
    rw [h1, ih, List.filter_filter]
    congr 1
    funext x
    by_cases hxi : x = i
    · subst hxi
      simp
    · by_cases hxs : x ∈ is <;> simp [hxi, hxs]

/-- C8: `structure_fn` is total by construction (it is a Lean function); an
empty input yields an empty output, and the working list strictly decreases
on each outer iteration since popping the front removes one element and the
removal pass only removes elements. -/
theorem dedup_total :
    (∀ (coins : ℕ → Bool) (t : ℚ), structure_fn coins [] t = []) ∧
      ∀ (d : Det) (ds rem : List Det), (removeAll ds rem).length < (d :: ds).length := by
  constructor
  · intro coins t
    unfold structure_fn
    exact dedupLoop_nil t coins 0
  · intro d ds rem
    simp only [List.length_cons]
    exact Nat.lt_succ_of_le (removeAll_length_le ds rem)

/-- Rust `buffer.trim_end()`: drop trailing whitespace characters. -/
def trimEnd (s : List Char) : List Char := List.rdropWhile Char.isWhitespace s

/-- The `'。'`-appending step of `optimize_length`'s sentence loop: every
split sentence except the last gets the separator back
(`if i < sentences.len() - 1 { current.push('。') }`). -/
def addSep : List (List Char) → List (List Char)
  | [] => []
  | [s] => [s]
  | s :: rest => (s ++ ['。']) :: addSep rest

/-- One iteration of the sentence loop of `optimize_length`
(`src/src/lib.rs` lines 74-90): a short sentence is appended to the buffer,
and when the buffer reaches the limit it is flushed *unclipped*
(`result.push(buffer.clone())`); a long sentence is emitted standalone. -/
def packSentence (n : ℕ) (st : List (List Char) × List Char) (cur : List Char) :
    List (List Char) × List Char :=
  if cur.length < n then
    let buf := st.2 ++ cur
    if n ≤ buf.length then (st.1 ++ [buf], [])
    else (st.1, buf)
  else (st.1 ++ [cur], st.2)

/-- One iteration of the outer loop of `optimize_length`
(`src/src/lib.rs` lines 64-92), with state `(result, buffer)`: a string
shorter than the limit is appended to the buffer, which on reaching the
limit is flushed trimmed (`buffer.trim_end()`); otherwise the string is
split on `'。'` and packed sentence by sentence. -/
def processString (n : ℕ) (st : List (List Char) × List Char) (s : List Char) :
    List (List Char) × List Char :=
  if s.length < n then
    let buf := st.2 ++ s
    if n ≤ buf.length then (st.1 ++ [trimEnd buf], [])
    else (st.1, buf)
  else (addSep (s.splitOn '。')).foldl (packSentence n) st

/-- `optimize_length` from `src/src/lib.rs` lines 59-97 (identical to
`optimize_strings_length` in `rust/src/ext/common.rs` lines 89-127):
greedy packing of strings into buffers of at least `n` characters, flushing
any non-empty leftover buffer at the end. -/
def optimize_length (s : List (List Char)) (n : ℕ) : List (List Char) :=
  let r := s.foldl (processString n) ([], [])
  if r.2.isEmpty then r.1 else r.1 ++ [r.2]

lemma rdropWhile_getLast?_not (p : Char → Bool) (l : List Char) (ch : Char)
    (h : (List.rdropWhile p l).getLast? = some ch) : p ch = false := by
  have hne : List.rdropWhile p l ≠ [] := by
    intro hnil
    rw [hnil] at h
    simp at h
  have hlast := List.rdropWhile_last_not p l hne
  have h2 : (List.rdropWhile p l).getLast hne = ch := by
    rw [List.getLast?_eq_getLast _ hne] at h
    exact Option.some_injective _ h
  rw [h2] at hlast
  exact Bool.not_eq_true _ ▸ eq_false_of_ne_true hlast

/-- C10 counterexample: input `["ab。cd "]` with limit `4`.  The string has
6 characters, so it is split into sentences `"ab。"` and `"cd "`; both are
shorter than the limit, the buffer reaches 6 ≥ 4 characters after the
second and is flushed by the threshold check of the sentence branch — and
the emitted element `"ab。cd "` keeps its trailing space, refuting the
claim that every threshold-triggered flush is trimmed. -/
theorem optimize_length_untrimmed_flush_counterexample :
    optimize_length [['a', 'b', '。', 'c', 'd', ' ']] 4 =
        [['a', 'b', '。', 'c', 'd', ' ']] ∧
      trimEnd ['a', 'b', '。', 'c', 'd', ' '] ≠ ['a', 'b', '。', 'c', 'd', ' '] := by
  constructor
  · rfl
  · decide

/-- C10 (amended): a threshold-triggered flush in the short-string branch
emits the buffer with trailing whitespace trimmed — the emitted element has
no trailing whitespace — while a threshold-triggered flush in the
sentence-splitting branch emits the buffer unchanged, possibly retaining
trailing whitespace. -/
theorem optimize_length_flush_trimming (n : ℕ) (res : List (List Char))
    (buf s cur : List Char) (hs : s.length < n) (hflush : n ≤ buf.length + s.length)
    (hc : cur.length < n) (hcflush : n ≤ buf.length + cur.length) :
    (processString n (res, buf) s = (res ++ [trimEnd (buf ++ s)], []) ∧
        ∀ ch, (trimEnd (buf ++ s)).getLast? = some ch → ch.isWhitespace = false) ∧
      packSentence n (res, buf) cur = (res ++ [buf ++ cur], []) := by
  refine ⟨⟨?_, ?_⟩, ?_⟩
  · unfold processString
    rw [if_pos hs]
    show (if n ≤ (buf ++ s).length then (res ++ [trimEnd (buf ++ s)], ([] : List Char))
        else (res, buf ++ s)) = (res ++ [trimEnd (buf ++ s)], [])
    rw [if_pos (by simpa [List.length_append] using hflush)]
  · intro ch hch
    exact rdropWhile_getLast?_not Char.isWhitespace (buf ++ s) ch hch
  · unfold packSentence
    rw [if_pos hc]
    show (if n ≤ (buf ++ cur).length then (res ++ [buf ++ cur], ([] : List Char))
        else (res, buf ++ cur)) = (res ++ [buf ++ cur], [])
    rw [if_pos (by simpa [List.length_append] using hcflush)]

/-- C10 witness: limit `4`, buffer `"ab。"`; the short string `"d "` makes
the buffer reach the limit in the short-string branch (flushed trimmed),
and the sentence `"c "` makes it reach the limit in the sentence branch
(flushed untrimmed). -/
theorem optimize_length_flush_trimming_witness :
    (['d', ' '] : List Char).length < 4 ∧
      4 ≤ (['a', 'b', '。'] : List Char).length + (['d', ' '] : List Char).length ∧
      (['c', ' '] : List Char).length < 4 ∧
      4 ≤ (['a', 'b', '。'] : List Char).length + (['c', ' '] : List Char).length ∧
      ((processString 4 ([], ['a', 'b', '。']) ['d', ' '] =
            ([trimEnd (['a', 'b', '。'] ++ ['d', ' '])], []) ∧
          ∀ ch, (trimEnd (['a', 'b', '。'] ++ ['d', ' '])).getLast? = some ch →
            ch.isWhitespace = false) ∧
        packSentence 4 ([], ['a', 'b', '。']) ['c', ' '] =
          ([['a', 'b', '。'] ++ ['c', ' ']], [])) := by
  exact ⟨by decide, by decide, by decide, by decide,
    optimize_length_flush_trimming 4 [] ['a', 'b', '。'] ['d', ' '] ['c', ' ']
      (by decide) (by decide) (by decide) (by decide)⟩

end CourseKG
